import Mathlib

/-!
# Verification of the LZ4 block-streaming engine (`src/src/lz4_compressor.h`)

Shallow embedding of the block-oriented streaming compression/decompression
engine.  Bytes are modelled as `Nat`, byte buffers as `List Nat`.  The header
in `src/` declares the five session variants, the iterator protocol, the
constants and `set_read_bytes`; the bodies of each variant's `init`/`next`
are not part of the sources, so those parts are modelled from the spec and
the corresponding definitions carry a `Modelled from the spec:` doc comment.
-/

namespace LZ4Spec

/-! ## Constants, from `src/src/lz4_compressor.h` lines 36-38. -/

def LZ4_BLOCK_SIZE : Nat := 1024 * 2

def LZ4_FILE_READ_SIZE : Nat := LZ4_BLOCK_SIZE * 2

def LZ4_RING_BUFFER_BYTES : Nat := 1024 * 256 + LZ4_BLOCK_SIZE

/-- Modelled from the spec: the external compression library's
`compress_bound(block_size)` sizing function (the `LZ4_COMPRESSBOUND` macro of
the vendored lz4 library, not present under `src/`): worst-case compressed
size of an input of `isize` bytes, `isize + isize/255 + 16`. -/
def LZ4_COMPRESSBOUND (isize : Nat) : Nat := isize + isize / 255 + 16

/-- The two error kinds of the engine (`LZ4IOError`, `LZ4CorruptVolume`,
header lines 50-65). -/
inductive LZ4Error where
  | IOError
  | CorruptVolume
deriving DecidableEq

/-! ## The external compression library

Modelled from the spec: the collaborator interface (spec §6) — a continuing
compression and a continuing decompression operation whose per-session state
is abstracted as the history of raw blocks already processed (the dictionary
contents both sides reconstruct in lock-step). -/

/-- Modelled from the spec: the external library.  `comp hist b` compresses
block `b` against the dictionary built from the previous raw blocks `hist`;
`decomp hist cb` decompresses `cb` against the same dictionary, `none`
signalling an invalid/negative result. -/
structure Codec where
  comp : List (List Nat) → List Nat → List Nat
  decomp : List (List Nat) → List Nat → Option (List Nat)

/-- The contract the spec assumes of the external library (spec §6, §4.2,
§4.3): on a nonempty block of at most `LZ4_BLOCK_SIZE` bytes, compression
produces a nonempty output of at most `LZ4_COMPRESSBOUND LZ4_BLOCK_SIZE`
bytes which decompression inverts. -/
def Codec.Valid (c : Codec) : Prop :=
  ∀ hist b, b ≠ [] → b.length ≤ LZ4_BLOCK_SIZE →
    c.decomp hist (c.comp hist b) = some b ∧
    0 < (c.comp hist b).length ∧
    (c.comp hist b).length ≤ LZ4_COMPRESSBOUND LZ4_BLOCK_SIZE

/-- A trivial codec satisfying the contract: compressed form = raw block. -/
def idCodec : Codec where
  comp := fun _ b => b
  decomp := fun _ cb => some cb

/-! ## Splitting the source into blocks

Modelled from the spec: each compression pull consumes up to `BLOCK_SIZE`
bytes of remaining source (spec §4.4); end of stream is the first pull that
finds no more source bytes.  Structured with a fuel argument (any fuel
`≥ x.length` gives the same result) so the definition is kernel-reducible. -/

def chunkBlocksAux : Nat → List Nat → List (List Nat)
  | _, [] => []
  | 0, _ :: _ => []
  | fuel + 1, y :: ys =>
    (y :: ys).take LZ4_BLOCK_SIZE :: chunkBlocksAux fuel ((y :: ys).drop LZ4_BLOCK_SIZE)

/-- Split a source buffer into the successive blocks the compression pulls
consume: all of size `LZ4_BLOCK_SIZE` except a shorter nonempty final one. -/
def chunkBlocks (x : List Nat) : List (List Nat) := chunkBlocksAux x.length x

/-! ## Frame encoding: `uint32` length prefix, little endian. -/

def encodeU32 (n : Nat) : List Nat :=
  [n % 256, n / 256 % 256, n / 65536 % 256, n / 16777216 % 256]

def decodeU32 (b0 b1 b2 b3 : Nat) : Nat :=
  b0 + b1 * 256 + b2 * 65536 + b3 * 16777216

/-! ## The Block Framer (compression side)

Modelled from the spec: each raw block is compressed through the continuing
context and emitted as `uint32-length-prefix ++ compressed-bytes`
(spec §4.2). -/

/-- The byte stream of the frames emitted for the block list `bs`, the
dictionary history on entry being `hist`. -/
def compressFrames (c : Codec) (hist : List (List Nat)) : List (List Nat) → List Nat
  | [] => []
  | b :: bs =>
    encodeU32 (c.comp hist b).length ++ c.comp hist b ++ compressFrames c (hist ++ [b]) bs

/-- The length prefixes of the frames emitted for the block list `bs`. -/
def frameLengths (c : Codec) (hist : List (List Nat)) : List (List Nat) → List Nat
  | [] => []
  | b :: bs => (c.comp hist b).length :: frameLengths c (hist ++ [b]) bs

/-- Modelled from the spec: the full compress-from-memory session
(`LZ4CompressData`): split the source into blocks and emit one frame per
block. -/
def lz4Compress (c : Codec) (x : List Nat) : List Nat :=
  compressFrames c [] (chunkBlocks x)

/-! ## The Block Deframer (decompression side)

Modelled from the spec: read the length prefix, validate
`0 < length ≤ compress_bound(BLOCK_SIZE)`, read exactly `length` compressed
bytes, decompress through the continuing context; any violation is a
`CorruptVolume` (spec §4.3, §4.5). -/

inductive PullResult where
  | done
  | block (b : List Nat) (rest : List Nat)
  | corrupt
deriving DecidableEq

/-- One decompression pull over the remaining compressed bytes `s`:
`done` at source exhaustion, `block b rest` on a valid frame decompressing
to `b` and leaving `rest`, `corrupt` when the length prefix is out of
bounds, the payload is truncated, or the library reports an invalid
result. -/
def pullStep (c : Codec) (hist : List (List Nat)) : List Nat → PullResult
  | [] => .done
  | b0 :: b1 :: b2 :: b3 :: rest =>
    if 0 < decodeU32 b0 b1 b2 b3 ∧
        decodeU32 b0 b1 b2 b3 ≤ LZ4_COMPRESSBOUND LZ4_BLOCK_SIZE then
      if decodeU32 b0 b1 b2 b3 ≤ rest.length then
        match c.decomp hist (rest.take (decodeU32 b0 b1 b2 b3)) with
        | some b => .block b (rest.drop (decodeU32 b0 b1 b2 b3))
        | none => .corrupt
      else .corrupt
    else .corrupt
  | _ => .corrupt

theorem pullStep_block_length {c : Codec} {hist : List (List Nat)}
    {s : List Nat} {b rest : List Nat}
    (h : pullStep c hist s = .block b rest) : rest.length < s.length := by
  match s with
  | [] => simp [pullStep] at h
  | [b0] => simp [pullStep] at h
  | [b0, b1] => simp [pullStep] at h
  | [b0, b1, b2] => simp [pullStep] at h
  | b0 :: b1 :: b2 :: b3 :: r =>
    simp only [pullStep] at h
    split at h
    · split at h
      · split at h
        · cases h
          simp only [List.length_cons, List.length_drop]
          omega
        · cases h
      · cases h
    · cases h

/-- Modelled from the spec: the decompress-from-memory loop
(`LZ4DecompressData`): pull frames until source exhaustion, concatenating
the decompressed blocks; a corrupt frame fails the whole pull sequence with
`CorruptVolume`. -/
def lz4DecompressLoop (c : Codec) (hist : List (List Nat)) (s : List Nat) :
    Except LZ4Error (List Nat) :=
  match h : pullStep c hist s with
  | .done => .ok []
  | .corrupt => .error .CorruptVolume
  | .block b rest =>
    match lz4DecompressLoop c (hist ++ [b]) rest with
    | .ok tl => .ok (b ++ tl)
    | .error e => .error e
termination_by s.length
decreasing_by exact pullStep_block_length h

def lz4Decompress (c : Codec) (s : List Nat) : Except LZ4Error (List Nat) :=
  lz4DecompressLoop c [] s

/-! ## The resumable descriptor variant (`LZ4DecompressDescriptor`)

Modelled from the spec: a pass decompresses frames from the descriptor's
current position, bounded by the caller-set `read_bytes` budget (spec §4.6):
the pass stops (terminal empty unit) when the cumulative compressed bytes
consumed reach the budget; reading past the budget is never attempted; a
frame that does not fit the remaining budget is an inconsistency
(`CorruptVolume`); a short read from the descriptor is an `IOError`. -/

/-- Modelled from the spec: one decompression pass.  `s` is the descriptor's
byte sequence from its current position, `budget` the `read_bytes` budget;
returns the decompressed blocks, the number of compressed bytes consumed
and the dictionary history after the pass. -/
def descPass (c : Codec) (hist : List (List Nat)) (s : List Nat) (budget : Nat) :
    Except LZ4Error (List (List Nat) × Nat × List (List Nat)) :=
  if hbud : budget = 0 then .ok ([], 0, hist)
  else
    match s with
    | b0 :: b1 :: b2 :: b3 :: rest =>
      if 0 < decodeU32 b0 b1 b2 b3 ∧
          decodeU32 b0 b1 b2 b3 ≤ LZ4_COMPRESSBOUND LZ4_BLOCK_SIZE then
        if 4 + decodeU32 b0 b1 b2 b3 ≤ budget then
          if decodeU32 b0 b1 b2 b3 ≤ rest.length then
            match c.decomp hist (rest.take (decodeU32 b0 b1 b2 b3)) with
            | some b =>
              match descPass c (hist ++ [b]) (rest.drop (decodeU32 b0 b1 b2 b3))
                  (budget - (4 + decodeU32 b0 b1 b2 b3)) with
              | .ok (out, consumed, hist2) =>
                .ok (b :: out, 4 + decodeU32 b0 b1 b2 b3 + consumed, hist2)
              | .error e => .error e
            | none => .error .CorruptVolume
          else .error .IOError
        else .error .CorruptVolume
      else .error .CorruptVolume
    | _ => .error .IOError
termination_by budget
decreasing_by omega

/-- The externally owned descriptor: its contents and its current position.
The engine never owns it; only the position advances through reads. -/
structure Descriptor where
  contents : List Nat
  pos : Nat
deriving DecidableEq

/-- Modelled from the spec: one `begin()`-to-drain pass of
`LZ4DecompressDescriptor` against the shared descriptor: decompress from the
descriptor's current position under the current budget, advancing the
position by exactly the compressed bytes consumed. -/
def runPass (c : Codec) (hist : List (List Nat)) (d : Descriptor) (budget : Nat) :
    Except LZ4Error (List (List Nat) × Descriptor × List (List Nat)) :=
  match descPass c hist (d.contents.drop d.pos) budget with
  | .ok (out, consumed, hist2) => .ok (out, ⟨d.contents, d.pos + consumed⟩, hist2)
  | .error e => .error e

/-! ## The Ring Window

Modelled from the spec: `write(block)` appends at the current cursor,
wrapping to offset 0 first if `capacity - cursor < len(block)` (spec §4.1);
the deframer advances its window identically to the framer (spec §2). -/

/-- Modelled from the spec: the compression-side Ring Window write: given the
cursor and the length of the block, return the write offset and the new
cursor, wrapping to offset 0 first when the remaining space
`LZ4_RING_BUFFER_BYTES - cursor` is smaller than the block. -/
def ringWrite (cursor len : Nat) : Nat × Nat :=
  if LZ4_RING_BUFFER_BYTES - cursor < len then (0, len) else (cursor, cursor + len)

/-- The successive compression-side write offsets for a sequence of block
lengths, starting from `cursor`. -/
def compWindowOffsets (cursor : Nat) : List Nat → List Nat
  | [] => []
  | len :: lens =>
    (ringWrite cursor len).1 :: compWindowOffsets (ringWrite cursor len).2 lens

/-- Modelled from the spec: the decompression-side Ring Window write — the
deframer reconstructs the block into `window.write()`'s slice, advancing the
window identically to the framer (spec §4.3, §2). -/
def decompRingWrite (cursor len : Nat) : Nat × Nat :=
  if LZ4_RING_BUFFER_BYTES - cursor < len then (0, len) else (cursor, cursor + len)

/-- The successive decompression-side write offsets for a sequence of block
lengths, starting from `cursor`. -/
def decompWindowOffsets (cursor : Nat) : List Nat → List Nat
  | [] => []
  | len :: lens =>
    (decompRingWrite cursor len).1 :: decompWindowOffsets (decompRingWrite cursor len).2 lens

/-! ## The lazy pull protocol of `LZ4BlockStreaming`

Modelled from the spec: every variant's `next` first checks the `_finish`
flag of the base class (header line 73) and returns the empty unit when it is
set; a pull that produces the empty unit sets `_finish`, so the session has
reached the terminal empty unit (spec §4.7, testable property 4). -/

/-- The base-class state: the `_finish` flag plus the variant-specific
state `σ`. -/
structure StreamState (σ : Type) where
  finished : Bool
  st : σ

/-- Modelled from the spec: one pull (`operator++` calling `_next`, header
lines 125-128): if `_finish` is set return the empty unit unchanged;
otherwise run the variant step, and if it produces the empty unit set
`_finish`. -/
def sessionNext {σ : Type} (step : σ → List Nat × σ) (s : StreamState σ) :
    List Nat × StreamState σ :=
  if s.finished then ([], s)
  else
    match step s.st with
    | (u, st2) => if u = [] then ([], ⟨true, st2⟩) else (u, ⟨false, st2⟩)

/-- The result of the `(k+1)`-th pull after state `s`. -/
def sessionPulls {σ : Type} (step : σ → List Nat × σ) (s : StreamState σ) :
    Nat → List Nat × StreamState σ
  | 0 => sessionNext step s
  | k + 1 => sessionPulls step (sessionNext step s).2 k

/-- A concrete variant step that is immediately exhausted. -/
def constStep : Nat → List Nat × Nat := fun n => ([], n)

/-! ## Copyability and movability of the Session types

`LZ4BlockStreaming` (header lines 97-104) declares a deleted copy
constructor, a deleted copy assignment operator and a user-provided
destructor, and declares no move operations.  The C++ implicit
special-member rules ([class.copy.ctor], [class.copy.assign]) are embedded
below to settle what that declaration set implies. -/

/-- The special member functions a C++ class declares. -/
structure CppClassDecl where
  userCopyCtor : Bool
  copyCtorDeleted : Bool
  userCopyAssign : Bool
  copyAssignDeleted : Bool
  userMoveCtor : Bool
  userMoveAssign : Bool
  userDtor : Bool

/-- A class is copy-constructible when its copy constructor (user-declared,
or else implicitly declared) is not deleted. -/
def copyConstructible (d : CppClassDecl) : Bool :=
  if d.userCopyCtor then !d.copyCtorDeleted else true

/-- A class is copy-assignable when its copy assignment operator is not
deleted. -/
def copyAssignable (d : CppClassDecl) : Bool :=
  if d.userCopyAssign then !d.copyAssignDeleted else true

/-- A move constructor exists when user-declared, or implicitly declared —
which C++ does only when the class has no user-declared copy constructor,
copy assignment, move assignment or destructor. -/
def hasMoveCtor (d : CppClassDecl) : Bool :=
  d.userMoveCtor ||
    (!d.userCopyCtor && !d.userCopyAssign && !d.userMoveAssign && !d.userDtor)

/-- A class is move-constructible when it has a move constructor, or when
overload resolution for an rvalue falls back to a usable copy
constructor. -/
def moveConstructible (d : CppClassDecl) : Bool :=
  hasMoveCtor d || copyConstructible d

/-- A move assignment operator exists when user-declared, or implicitly
declared — only when the class has no user-declared copy constructor, copy
assignment, move constructor or destructor. -/
def hasMoveAssign (d : CppClassDecl) : Bool :=
  d.userMoveAssign ||
    (!d.userCopyCtor && !d.userCopyAssign && !d.userMoveCtor && !d.userDtor)

/-- A class is move-assignable when it has a move assignment operator, or
when assignment from an rvalue falls back to a usable copy assignment. -/
def moveAssignable (d : CppClassDecl) : Bool :=
  hasMoveAssign d || copyAssignable d

/-- `LZ4BlockStreaming`, header lines 97-104: deleted copy constructor
(line 98), deleted copy assignment (line 99), user destructor (lines
101-104), no declared move operations. -/
def lz4BlockStreamingDecl : CppClassDecl :=
  ⟨true, true, true, true, false, false, true⟩

/-! ## The iterator (header lines 106-153). -/

/-- The iterator state: the owning session (`obj`, the pointer, modelled by
an identifier) and the current unit `current_str`. -/
structure LZ4Iterator where
  obj : Nat
  current_str : List Nat

/-- `operator==` (header lines 142-144): compares only `current_str`. -/
def iterEq (a b : LZ4Iterator) : Bool :=
  a.current_str == b.current_str

/-- `explicit operator bool` (header lines 150-152): true exactly when the
current unit is nonempty. -/
def iterToBool (a : LZ4Iterator) : Bool :=
  !a.current_str.isEmpty

/-- `end()` (header lines 159-161): an iterator over the session holding the
empty string. -/
def endIter (obj : Nat) : LZ4Iterator :=
  ⟨obj, []⟩

/-! ## `set_read_bytes` (header lines 262-285). -/

def SSIZE_MAX : Nat := 2 ^ 63 - 1

/-- Conversion of a 64-bit `size_t` value into an `ssize_t` field: values up
to `SSIZE_MAX` are preserved, larger values take their two's-complement
reinterpretation `n - 2^64`. -/
def toSSizeT (n : Nat) : Int :=
  if n ≤ SSIZE_MAX then (n : Int) else (n : Int) - 2 ^ 64

/-- The `read_bytes` field of `LZ4DecompressDescriptor` (header line 266,
declared `ssize_t`). -/
structure DescriptorState where
  read_bytes : Int

/-- `set_read_bytes` (header lines 282-284): takes a `size_t` and stores it
into the `ssize_t` field `read_bytes`. -/
def set_read_bytes (st : DescriptorState) (n : Nat) : DescriptorState :=
  ⟨toSSizeT n⟩

/-! ## Properties of the chunking. -/

theorem idCodec_valid : idCodec.Valid := by
  intro hist b hb hlen
  refine ⟨rfl, ?_, ?_⟩
  · simpa [idCodec] using List.length_pos.mpr hb
  · simp only [idCodec, LZ4_COMPRESSBOUND, LZ4_BLOCK_SIZE] at *
    omega

theorem length_encodeU32 (n : Nat) : (encodeU32 n).length = 4 := rfl

theorem decodeU32_encodeU32 (n : Nat) (h : n < 4294967296) :
    decodeU32 (n % 256) (n / 256 % 256) (n / 65536 % 256) (n / 16777216 % 256) = n := by
  simp only [decodeU32]
  omega

theorem chunkBlocksAux_flatten :
    ∀ (fuel : Nat) (x : List Nat), x.length ≤ fuel →
      (chunkBlocksAux fuel x).flatten = x := by
  intro fuel
  induction fuel with
  | zero =>
    intro x hx
    match x with
    | [] => rfl
  | succ fuel ih =>
    intro x hx
    match x with
    | [] => rfl
    | y :: ys =>
      simp only [chunkBlocksAux, List.flatten_cons]
      rw [ih ((y :: ys).drop LZ4_BLOCK_SIZE)
            (by simp only [List.length_drop, List.length_cons, LZ4_BLOCK_SIZE] at *; omega)]
      exact List.take_append_drop _ _

theorem chunkBlocks_flatten (x : List Nat) : (chunkBlocks x).flatten = x :=
  chunkBlocksAux_flatten x.length x le_rfl

theorem chunkBlocksAux_wf :
    ∀ (fuel : Nat) (x : List Nat), ∀ b ∈ chunkBlocksAux fuel x,
      b ≠ [] ∧ b.length ≤ LZ4_BLOCK_SIZE := by
  intro fuel
  induction fuel with
  | zero =>
    intro x b hb
    match x with
    | [] => simp [chunkBlocksAux] at hb
    | y :: ys => simp [chunkBlocksAux] at hb
  | succ fuel ih =>
    intro x b hb
    match x with
    | [] => simp [chunkBlocksAux] at hb
    | y :: ys =>
      simp only [chunkBlocksAux, List.mem_cons] at hb
      rcases hb with hb | hb
      · subst hb
        constructor
        · have h2048 : 0 < LZ4_BLOCK_SIZE := by simp [LZ4_BLOCK_SIZE]
          simp [List.take_eq_nil_iff, Nat.pos_iff_ne_zero.mp h2048]
        · simp only [List.length_take]
          omega
      · exact ih _ b hb

theorem chunkBlocks_wf (x : List Nat) :
    ∀ b ∈ chunkBlocks x, b ≠ [] ∧ b.length ≤ LZ4_BLOCK_SIZE :=
  chunkBlocksAux_wf x.length x

/-! ## Round trip. -/

theorem pullStep_frame (c : Codec) (hc : c.Valid) (hist : List (List Nat))
    (b : List Nat) (hb : b ≠ []) (hlen : b.length ≤ LZ4_BLOCK_SIZE)
    (rest : List Nat) :
    pullStep c hist (encodeU32 (c.comp hist b).length ++ c.comp hist b ++ rest)
      = .block b rest := by
  obtain ⟨hinv, hpos, hbound⟩ := hc hist b hb hlen
  have hlt : (c.comp hist b).length < 4294967296 := by
    have : LZ4_COMPRESSBOUND LZ4_BLOCK_SIZE = 2072 := by rfl
    omega
  simp only [encodeU32, List.cons_append, List.nil_append, pullStep,
    decodeU32_encodeU32 _ hlt]
  rw [if_pos ⟨hpos, hbound⟩,
    if_pos (by simp only [List.length_append]; omega),
    List.take_left, List.drop_left, hinv]

theorem decompressLoop_eq_done {c : Codec} {hist : List (List Nat)}
    {s : List Nat} (h : pullStep c hist s = .done) :
    lz4DecompressLoop c hist s = .ok [] := by
  rw [lz4DecompressLoop]
  split
  · rfl
  · rename_i heq
    rw [h] at heq
    cases heq
  · rename_i heq
    rw [h] at heq
    cases heq

theorem decompressLoop_eq_corrupt {c : Codec} {hist : List (List Nat)}
    {s : List Nat} (h : pullStep c hist s = .corrupt) :
    lz4DecompressLoop c hist s = .error .CorruptVolume := by
  rw [lz4DecompressLoop]
  split
  · rename_i heq
    rw [h] at heq
    cases heq
  · rfl
  · rename_i heq
    rw [h] at heq
    cases heq

theorem decompressLoop_eq_block {c : Codec} {hist : List (List Nat)}
    {s b rest : List Nat} (h : pullStep c hist s = .block b rest) :
    lz4DecompressLoop c hist s =
      match lz4DecompressLoop c (hist ++ [b]) rest with
      | .ok tl => .ok (b ++ tl)
      | .error e => .error e := by
  rw [lz4DecompressLoop]
  split
  · rename_i heq
    rw [h] at heq
    cases heq
  · rename_i heq
    rw [h] at heq
    cases heq
  · rename_i heq
    rw [h] at heq
    cases heq
    rfl

theorem decompressLoop_frames (c : Codec) (hc : c.Valid) :
    ∀ (bs : List (List Nat)) (hist : List (List Nat)),
      (∀ b ∈ bs, b ≠ [] ∧ b.length ≤ LZ4_BLOCK_SIZE) →
      lz4DecompressLoop c hist (compressFrames c hist bs) = .ok bs.flatten := by
  intro bs
  induction bs with
  | nil =>
    intro hist _
    exact decompressLoop_eq_done rfl
  | cons b bs ih =>
    intro hist hwf
    obtain ⟨hb, hlen⟩ := hwf b (List.mem_cons_self b bs)
    simp only [compressFrames]
    rw [decompressLoop_eq_block (pullStep_frame c hc hist b hb hlen _)]
    rw [ih (hist ++ [b]) (fun b' hb' => hwf b' (List.mem_cons_of_mem b hb'))]
    rfl

/-- C1: decompressing the frames produced by a compress session over `x`
yields exactly `x`, for every `x` of length `0`, `1`, `BLOCK_SIZE - 1`,
`BLOCK_SIZE`, `BLOCK_SIZE + 1` or `10 * BLOCK_SIZE`, assuming the external
library meets its contract. -/
theorem lz4_roundtrip (c : Codec) (hc : c.Valid) (x : List Nat)
    (hx : x.length = 0 ∨ x.length = 1 ∨ x.length = LZ4_BLOCK_SIZE - 1 ∨
      x.length = LZ4_BLOCK_SIZE ∨ x.length = LZ4_BLOCK_SIZE + 1 ∨
      x.length = 10 * LZ4_BLOCK_SIZE) :
    lz4Decompress c (lz4Compress c x) = .ok x := by
  clear hx
  unfold lz4Decompress lz4Compress
  rw [decompressLoop_frames c hc (chunkBlocks x) [] (chunkBlocks_wf x),
    chunkBlocks_flatten]

/-- Witness for C1: the identity codec meets the contract and the round trip
holds at the concrete input `[]`. -/
theorem lz4_roundtrip_witness :
    lz4Decompress idCodec (lz4Compress idCodec []) = .ok [] :=
  lz4_roundtrip idCodec idCodec_valid [] (Or.inl rfl)

/-! ## Corruption detection (C3). -/

/-- C3: a decompression pull whose decoded length prefix violates
`0 < length ≤ compress_bound(BLOCK_SIZE)`, or whose external decompress call
reports an invalid result, fails with `CorruptVolume` — the pull never
returns bytes. -/
theorem deframe_corrupt (c : Codec) (hist : List (List Nat))
    (b0 b1 b2 b3 : Nat) (rest : List Nat)
    (h : ¬(0 < decodeU32 b0 b1 b2 b3 ∧
            decodeU32 b0 b1 b2 b3 ≤ LZ4_COMPRESSBOUND LZ4_BLOCK_SIZE) ∨
         c.decomp hist (rest.take (decodeU32 b0 b1 b2 b3)) = none) :
    pullStep c hist (b0 :: b1 :: b2 :: b3 :: rest) = .corrupt ∧
    lz4DecompressLoop c hist (b0 :: b1 :: b2 :: b3 :: rest)
      = .error .CorruptVolume := by
  have hp : pullStep c hist (b0 :: b1 :: b2 :: b3 :: rest) = .corrupt := by
    simp only [pullStep]
    rcases h with h | h
    · rw [if_neg h]
    · split
      · split
        · split
          · rename_i heq
            rw [h] at heq
            cases heq
          · rfl
        · rfl
      · rfl
  exact ⟨hp, decompressLoop_eq_corrupt hp⟩

/-- Witness for C3: an all-zero length prefix (length 0) is rejected as
`CorruptVolume`. -/
theorem deframe_corrupt_witness :
    pullStep idCodec [] (0 :: 0 :: 0 :: 0 :: []) = .corrupt ∧
    lz4DecompressLoop idCodec [] (0 :: 0 :: 0 :: 0 :: [])
      = .error .CorruptVolume :=
  deframe_corrupt idCodec [] 0 0 0 0 [] (Or.inl (by decide))

/-! ## Framing validity (C4). -/

theorem frameLengths_wf (c : Codec) (hc : c.Valid) :
    ∀ (bs : List (List Nat)) (hist : List (List Nat)),
      (∀ b ∈ bs, b ≠ [] ∧ b.length ≤ LZ4_BLOCK_SIZE) →
      ∀ len ∈ frameLengths c hist bs,
        0 < len ∧ len ≤ LZ4_COMPRESSBOUND LZ4_BLOCK_SIZE := by
  intro bs
  induction bs with
  | nil =>
    intro hist _ len hlen
    simp [frameLengths] at hlen
  | cons b bs ih =>
    intro hist hwf len hlen
    simp only [frameLengths, List.mem_cons] at hlen
    rcases hlen with hlen | hlen
    · obtain ⟨hb, hble⟩ := hwf b (List.mem_cons_self b bs)
      obtain ⟨-, hpos, hbound⟩ := hc hist b hb hble
      subst hlen
      exact ⟨hpos, hbound⟩
    · exact ih (hist ++ [b]) (fun b' hb' => hwf b' (List.mem_cons_of_mem b hb')) len hlen

/-- C4: every frame a compress session emits has a length prefix in
`(0, compress_bound(BLOCK_SIZE)]` (assuming the external library meets its
contract), and an empty source produces no frame at all (the terminal empty
unit) rather than a zero-length frame. -/
theorem frame_validity (c : Codec) (hc : c.Valid) (x : List Nat) :
    (∀ len ∈ frameLengths c [] (chunkBlocks x),
      0 < len ∧ len ≤ LZ4_COMPRESSBOUND LZ4_BLOCK_SIZE) ∧
    (x = [] → lz4Compress c x = []) := by
  refine ⟨frameLengths_wf c hc (chunkBlocks x) [] (chunkBlocks_wf x), ?_⟩
  intro hx
  subst hx
  rfl

/-- Witness for C4: over the three-byte source `[1, 2, 3]` the identity
codec emits exactly one frame, of length 3, and the bound holds for it. -/
theorem frame_validity_witness :
    0 < 3 ∧ 3 ≤ LZ4_COMPRESSBOUND LZ4_BLOCK_SIZE :=
  (frame_validity idCodec idCodec_valid [1, 2, 3]).1 3 (by decide)

/-! ## Window lock-step (C2). -/

/-- C2: for every block-length sequence and starting cursor, the
compression-side and decompression-side ring windows write at identical
offsets; each side's write appends at the current cursor and wraps to
offset 0 exactly when `capacity - cursor < len`. -/
theorem window_lockstep (lens : List Nat) (cursor : Nat) :
    compWindowOffsets cursor lens = decompWindowOffsets cursor lens ∧
    (∀ cur len,
      ringWrite cur len =
        (if LZ4_RING_BUFFER_BYTES - cur < len then (0, len) else (cur, cur + len)) ∧
      decompRingWrite cur len =
        (if LZ4_RING_BUFFER_BYTES - cur < len then (0, len) else (cur, cur + len))) := by
  constructor
  · induction lens generalizing cursor with
    | nil => rfl
    | cons len lens ih =>
      simp only [compWindowOffsets, decompWindowOffsets, ringWrite, decompRingWrite]
      split
      · rw [ih]
      · rw [ih]
  · intro cur len
    exact ⟨rfl, rfl⟩

/-! ## Terminal idempotence (C5). -/

theorem sessionNext_finished {σ : Type} (step : σ → List Nat × σ)
    (s : StreamState σ) (h : s.finished = true) :
    sessionNext step s = ([], s) := by
  simp [sessionNext, h]

theorem sessionNext_empty_finished {σ : Type} (step : σ → List Nat × σ)
    (s : StreamState σ) (h : (sessionNext step s).1 = []) :
    (sessionNext step s).2.finished = true := by
  by_cases hf : s.finished = true
  · rw [sessionNext_finished step s hf]
    exact hf
  · rcases hu : step s.st with ⟨u, st2⟩
    simp only [sessionNext, if_neg hf, hu] at h ⊢
    by_cases he : u = []
    · simp [he]
    · simp only [if_neg he] at h
      exact absurd h he

theorem sessionPulls_finished {σ : Type} (step : σ → List Nat × σ) :
    ∀ (k : Nat) (s : StreamState σ), s.finished = true →
      sessionPulls step s k = ([], s) := by
  intro k
  induction k with
  | zero =>
    intro s h
    exact sessionNext_finished step s h
  | succ k ih =>
    intro s h
    simp only [sessionPulls, sessionNext_finished step s h]
    exact ih s h

/-- C5: once a pull returns the terminal empty unit, every subsequent pull
returns the terminal empty unit again, leaving the session state
untouched. -/
theorem terminal_idempotence {σ : Type} (step : σ → List Nat × σ)
    (s : StreamState σ) (h : (sessionNext step s).1 = []) (k : Nat) :
    (sessionPulls step (sessionNext step s).2 k).1 = [] ∧
    (sessionPulls step (sessionNext step s).2 k).2 = (sessionNext step s).2 := by
  rw [sessionPulls_finished step k (sessionNext step s).2
    (sessionNext_empty_finished step s h)]
  exact ⟨rfl, rfl⟩

/-- Witness for C5: a session over an exhausted source returns the empty
unit and keeps returning it three pulls later. -/
theorem terminal_idempotence_witness :
    (sessionPulls constStep (sessionNext constStep ⟨false, 0⟩).2 3).1 = [] :=
  (terminal_idempotence constStep ⟨false, 0⟩ rfl 3).1

/-! ## The resumable descriptor (C6). -/

theorem descPass_zero (c : Codec) (hist : List (List Nat)) (s : List Nat) :
    descPass c hist s 0 = .ok ([], 0, hist) := by
  rw [descPass.eq_def]
  simp

theorem descPass_step (c : Codec) (hc : c.Valid) (hist : List (List Nat))
    (b : List Nat) (hb : b ≠ []) (hlen : b.length ≤ LZ4_BLOCK_SIZE)
    (rest : List Nat) (budget : Nat)
    (hbud : 4 + (c.comp hist b).length ≤ budget) :
    descPass c hist (encodeU32 (c.comp hist b).length ++ (c.comp hist b ++ rest)) budget
      = match descPass c (hist ++ [b]) rest (budget - (4 + (c.comp hist b).length)) with
        | .ok (out, consumed, hist2) =>
          .ok (b :: out, 4 + (c.comp hist b).length + consumed, hist2)
        | .error e => .error e := by
  obtain ⟨hinv, hpos, hbound⟩ := hc hist b hb hlen
  have hcb : LZ4_COMPRESSBOUND LZ4_BLOCK_SIZE = 2072 := rfl
  have hlt : (c.comp hist b).length < 4294967296 := by omega
  rw [descPass.eq_def]
  rw [dif_neg (by omega)]
  simp only [encodeU32, List.cons_append, List.nil_append,
    decodeU32_encodeU32 _ hlt]
  rw [if_pos ⟨hpos, hbound⟩, if_pos hbud,
    if_pos (by simp only [List.length_append]; omega),
    List.take_left, List.drop_left, hinv]

theorem descPass_frames (c : Codec) (hc : c.Valid) :
    ∀ (bs : List (List Nat)) (hist : List (List Nat)) (tail : List Nat),
      (∀ b ∈ bs, b ≠ [] ∧ b.length ≤ LZ4_BLOCK_SIZE) →
      descPass c hist (compressFrames c hist bs ++ tail)
          (compressFrames c hist bs).length
        = .ok (bs, (compressFrames c hist bs).length, hist ++ bs) := by
  intro bs
  induction bs with
  | nil =>
    intro hist tail _
    show descPass c hist ([] ++ tail) ([] : List Nat).length = _
    rw [List.nil_append, List.length_nil, descPass_zero, List.append_nil]
    rfl
  | cons b bs ih =>
    intro hist tail hwf
    obtain ⟨hb, hlen⟩ := hwf b (List.mem_cons_self b bs)
    simp only [compressFrames, List.append_assoc]
    rw [descPass_step c hc hist b hb hlen
      (compressFrames c (hist ++ [b]) bs ++ tail) _
      (by simp only [List.length_append, length_encodeU32]; omega)]
    rw [show (encodeU32 (c.comp hist b).length ++
          (c.comp hist b ++ compressFrames c (hist ++ [b]) bs)).length -
          (4 + (c.comp hist b).length)
        = (compressFrames c (hist ++ [b]) bs).length from by
      simp only [List.length_append, length_encodeU32]
      omega]
    rw [ih (hist ++ [b]) tail (fun b' hb' => hwf b' (List.mem_cons_of_mem b hb'))]
    simp only [Except.ok.injEq, Prod.mk.injEq]
    refine ⟨trivial, ?_, ?_⟩
    · simp only [List.length_append, length_encodeU32]
      omega
    · simp

theorem descPass_consumed_le (c : Codec) :
    ∀ (budget : Nat) (hist : List (List Nat)) (s : List Nat)
      (out : List (List Nat)) (consumed : Nat) (hist2 : List (List Nat)),
      descPass c hist s budget = .ok (out, consumed, hist2) →
      consumed ≤ budget := by
  intro budget
  induction budget using Nat.strong_induction_on with
  | _ budget ih =>
    intro hist s out consumed hist2 h
    rw [descPass.eq_def] at h
    split at h
    · simp only [Except.ok.injEq, Prod.mk.injEq] at h
      omega
    · rename_i hbud
      split at h
      · split at h
        · split at h
          · rename_i b0 b1 b2 b3 rest hval hfit
            split at h
            · split at h
              · rename_i b hdec
                split at h
                · rename_i out2 consumed2 hist3 hrec
                  simp only [Except.ok.injEq, Prod.mk.injEq] at h
                  obtain ⟨h1, h2, h3⟩ := h
                  have hle := ih (budget - (4 + decodeU32 b0 b1 b2 b3)) (by omega)
                    (hist ++ [b]) (rest.drop (decodeU32 b0 b1 b2 b3))
                    out2 consumed2 hist3 hrec
                  omega
                · simp at h
              · simp at h
            · simp at h
          · simp at h
        · simp at h
      · simp at h

/-- C6: a descriptor pass returns the terminal empty unit once the
cumulative compressed bytes consumed reach `read_bytes` and never advances
the descriptor past the budget; over a descriptor holding two back-to-back
compressed segments of sizes `S1` and `S2`, draining with `read_bytes = S1`
and then, after `set_read_bytes`, draining again with `read_bytes = S2`
yields exactly the second segment's decompressed blocks, the descriptor's
position having advanced by `S1 + S2` bytes in total. -/
theorem descriptor_resumable (c : Codec) (hc : c.Valid)
    (bs1 bs2 : List (List Nat))
    (h1 : ∀ b ∈ bs1, b ≠ [] ∧ b.length ≤ LZ4_BLOCK_SIZE)
    (h2 : ∀ b ∈ bs2, b ≠ [] ∧ b.length ≤ LZ4_BLOCK_SIZE) :
    runPass c [] ⟨compressFrames c [] bs1 ++ compressFrames c bs1 bs2, 0⟩
        (compressFrames c [] bs1).length
      = .ok (bs1, ⟨compressFrames c [] bs1 ++ compressFrames c bs1 bs2,
          (compressFrames c [] bs1).length⟩, bs1) ∧
    runPass c bs1 ⟨compressFrames c [] bs1 ++ compressFrames c bs1 bs2,
          (compressFrames c [] bs1).length⟩ (compressFrames c bs1 bs2).length
      = .ok (bs2, ⟨compressFrames c [] bs1 ++ compressFrames c bs1 bs2,
          (compressFrames c [] bs1).length + (compressFrames c bs1 bs2).length⟩,
          bs1 ++ bs2) ∧
    (∀ (hist : List (List Nat)) (d : Descriptor) (budget : Nat)
        (out : List (List Nat)) (d2 : Descriptor) (hist2 : List (List Nat)),
      runPass c hist d budget = .ok (out, d2, hist2) → d2.pos ≤ d.pos + budget) ∧
    descPass c bs1 (compressFrames c bs1 bs2) 0 = .ok ([], 0, bs1) := by
  refine ⟨?_, ?_, ?_, descPass_zero c bs1 _⟩
  · simp only [runPass, List.drop_zero]
    rw [descPass_frames c hc bs1 [] (compressFrames c bs1 bs2) h1]
    simp
  · simp only [runPass, List.drop_left]
    have hfr := descPass_frames c hc bs2 bs1 [] h2
    rw [List.append_nil] at hfr
    rw [hfr]
  · intro hist d budget out d2 hist2 h
    simp only [runPass] at h
    split at h
    · rename_i out2 consumed hist3 hrec
      simp only [Except.ok.injEq, Prod.mk.injEq] at h
      obtain ⟨h1, h2, h3⟩ := h
      have hle := descPass_consumed_le c budget hist (d.contents.drop d.pos)
        out2 consumed hist3 hrec
      rw [← h2]
      simp only []
      omega
    · simp at h

/-- Witness for C6: with the identity codec, a descriptor holding the two
one-block segments for `[[1]]` and `[[2]]`, drained with budget `S1`, yields
the first segment and leaves the position at `S1`. -/
theorem descriptor_resumable_witness :
    runPass idCodec []
        ⟨compressFrames idCodec [] [[1]] ++ compressFrames idCodec [[1]] [[2]], 0⟩
        (compressFrames idCodec [] [[1]]).length
      = .ok ([[1]], ⟨compressFrames idCodec [] [[1]] ++ compressFrames idCodec [[1]] [[2]],
          (compressFrames idCodec [] [[1]]).length⟩, [[1]]) :=
  (descriptor_resumable idCodec idCodec_valid [[1]] [[2]] (by decide) (by decide)).1

/-! ## Engine constants (C7). -/

/-- C7: `BLOCK_SIZE` is 2048 bytes, `RING_BUFFER_BYTES` is
256 KiB + `BLOCK_SIZE`, and `FILE_READ_SIZE` is at least the worst-case
compressed size of one block, `LZ4_COMPRESSBOUND(LZ4_BLOCK_SIZE)`. -/
theorem engine_constants :
    LZ4_BLOCK_SIZE = 2048 ∧
    LZ4_RING_BUFFER_BYTES = 256 * 1024 + LZ4_BLOCK_SIZE ∧
    LZ4_COMPRESSBOUND LZ4_BLOCK_SIZE ≤ LZ4_FILE_READ_SIZE := by
  refine ⟨rfl, rfl, ?_⟩
  decide

/-! ## Copyability and movability (C8). -/

/-- C8 counterexample: `LZ4BlockStreaming` is indeed neither
copy-constructible nor copy-assignable, but it is not movable either — its
deleted copy operations and user-declared destructor suppress the implicit
move operations, and overload resolution for an rvalue falls back to the
deleted copy operations. -/
theorem session_not_movable :
    ¬(copyConstructible lz4BlockStreamingDecl = false ∧
      copyAssignable lz4BlockStreamingDecl = false ∧
      (moveConstructible lz4BlockStreamingDecl = true ∨
        moveAssignable lz4BlockStreamingDecl = true)) := by
  decide

/-- C8 (amended): every Session type, via the `LZ4BlockStreaming` base, is
neither copy-constructible nor copy-assignable — and also neither
move-constructible nor move-assignable. -/
theorem session_not_copyable_not_movable :
    copyConstructible lz4BlockStreamingDecl = false ∧
    copyAssignable lz4BlockStreamingDecl = false ∧
    moveConstructible lz4BlockStreamingDecl = false ∧
    moveAssignable lz4BlockStreamingDecl = false := by
  decide

/-! ## Iterator equality (C9). -/

/-- C9: an iterator compares equal to `end()` exactly when its current unit
is empty; its boolean conversion is true exactly when the current unit is
nonempty; equality looks only at the bytes of the current unit, so iterators
of two different sessions with byte-equal current units compare equal. -/
theorem iterator_eq_spec (s1 s2 : Nat) (u1 u2 : List Nat) :
    (iterEq ⟨s1, u1⟩ (endIter s2) = true ↔ u1 = []) ∧
    (iterToBool ⟨s1, u1⟩ = true ↔ u1 ≠ []) ∧
    (u1 = u2 → iterEq ⟨s1, u1⟩ ⟨s2, u2⟩ = true) := by
  refine ⟨?_, ?_, ?_⟩
  · simp [iterEq, endIter]
  · simp [iterToBool, List.isEmpty_iff]
  · intro h
    simp [iterEq, h]

/-- Witness for C9: iterators of sessions `0` and `1` whose current units
are both `[7]` compare equal. -/
theorem iterator_eq_spec_witness :
    iterEq ⟨0, [7]⟩ ⟨1, [7]⟩ = true :=
  (iterator_eq_spec 0 1 [7] [7]).2.2 rfl

/-! ## `set_read_bytes` conversion (C10). -/

/-- C10: `set_read_bytes` stores its unsigned `size_t` argument into the
signed `ssize_t` field: any `n ≤ SSIZE_MAX` is stored as `n`, while a larger
`n` is stored as its two's-complement reinterpretation `n - 2^64`, a
negative value, rather than being rejected or saturated. -/
theorem set_read_bytes_conversion (st : DescriptorState) (n : Nat)
    (hn : n < 2 ^ 64) :
    (n ≤ SSIZE_MAX → (set_read_bytes st n).read_bytes = (n : Int)) ∧
    (SSIZE_MAX < n →
      (set_read_bytes st n).read_bytes = (n : Int) - 2 ^ 64 ∧
      (set_read_bytes st n).read_bytes < 0) := by
  constructor
  · intro h
    simp [set_read_bytes, toSSizeT, h]
  · intro h
    have hv : (set_read_bytes st n).read_bytes = (n : Int) - 2 ^ 64 := by
      simp [set_read_bytes, toSSizeT, not_le.mpr h]
    refine ⟨hv, ?_⟩
    rw [hv]
    have hn' : (n : Int) < 2 ^ 64 := by exact_mod_cast hn
    linarith

/-- Witness for C10: storing `2^63` yields the negative value
`2^63 - 2^64`. -/
theorem set_read_bytes_conversion_witness :
    (set_read_bytes ⟨0⟩ (2 ^ 63)).read_bytes = ((2 ^ 63 : Nat) : Int) - 2 ^ 64 ∧
    (set_read_bytes ⟨0⟩ (2 ^ 63)).read_bytes < 0 :=
  (set_read_bytes_conversion ⟨0⟩ (2 ^ 63) (by norm_num)).2
    (by norm_num [SSIZE_MAX])

end LZ4Spec
